import Mathlib

/-!
# Verification of `tweets.h` (roccosec/twitter)

A shallow embedding of the stream pipeline in `src/tweets.h`:

* `errorclassfrom`              : classification of an `http_exception`;
* `isEndOfTweet`, `parsetweets` : reconstruction of lines from chunks, the
  keepalive filter, the round-robin sharder and the decoder;
* `twitter_stream_reconnection` : the recovery action chosen on a failure.

A `std::string` is embedded as a `List Char`, one `Char` per byte.  An
`observable<T>` is embedded by the finite list of the items it has delivered,
together with the way it ended where that matters.
-/

namespace tweets

/-! ## Failure classification (`errorclassfrom`, lines 75-109) -/

/-- The `enum class errorcodeclass` of the source. -/
inductive errorcodeclass where
  | Invalid
  | TcpRetry
  | ErrorRetry
  | StatusRetry
  | RateLimited
  deriving DecidableEq, Repr

/-- The libcurl result code carried by an `http_exception` (`ex.code()`),
as its numeric value. -/
abbrev CURLcode := Nat

/-- Value of the libcurl constant (curl.h). -/
def CURLE_COULDNT_RESOLVE_HOST : CURLcode := 6
/-- Value of the libcurl constant (curl.h). -/
def CURLE_COULDNT_CONNECT : CURLcode := 7
/-- Value of the libcurl constant (curl.h). -/
def CURLE_PARTIAL_FILE : CURLcode := 18
/-- Value of the libcurl constant (curl.h). -/
def CURLE_HTTP_RETURNED_ERROR : CURLcode := 22
/-- Value of the libcurl constant (curl.h). -/
def CURLE_OPERATION_TIMEDOUT : CURLcode := 28
/-- Value of the libcurl constant (curl.h). -/
def CURLE_GOT_NOTHING : CURLcode := 52
/-- Value of the libcurl constant (curl.h). -/
def CURLE_SEND_ERROR : CURLcode := 55
/-- Value of the libcurl constant (curl.h). -/
def CURLE_RECV_ERROR : CURLcode := 56
/-- Value of the libcurl constant (curl.h). -/
def CURLE_BAD_CONTENT_ENCODING : CURLcode := 61
/-- Value of the libcurl constant (curl.h). -/
def CURLE_REMOTE_FILE_NOT_FOUND : CURLcode := 78

/-- The two observers of an `http_exception` that `tweets.h` reads:
`ex.code()` and `ex.httpStatus()`. -/
structure http_exception where
  code : CURLcode
  httpStatus : Int
  deriving DecidableEq, Repr

/-- The function `errorclassfrom` of the source: the `switch` on `ex.code()`
with its two groups of `case` labels, the `default:` branch with the guarded
status tests, and the final `return errorcodeclass::StatusRetry`. -/
def errorclassfrom (ex : http_exception) : errorcodeclass :=
  if ex.code = CURLE_COULDNT_RESOLVE_HOST ∨ ex.code = CURLE_COULDNT_CONNECT ∨
      ex.code = CURLE_OPERATION_TIMEDOUT ∨ ex.code = CURLE_BAD_CONTENT_ENCODING ∨
      ex.code = CURLE_REMOTE_FILE_NOT_FOUND then
    errorcodeclass.ErrorRetry
  else if ex.code = CURLE_GOT_NOTHING ∨ ex.code = CURLE_PARTIAL_FILE ∨
      ex.code = CURLE_SEND_ERROR ∨ ex.code = CURLE_RECV_ERROR then
    errorcodeclass.TcpRetry
  else
    if ex.code = CURLE_HTTP_RETURNED_ERROR ∨ ex.httpStatus > 200 then
      if ex.httpStatus = 420 then
        errorcodeclass.RateLimited
      else if ex.httpStatus = 404 ∨ ex.httpStatus = 406 ∨
          ex.httpStatus = 413 ∨ ex.httpStatus = 416 then
        errorcodeclass.Invalid
      else
        errorcodeclass.StatusRetry
    else
      errorcodeclass.StatusRetry

/-- The classification table of the specification, its rows evaluated in
order (transport code `c`, HTTP status `h`). -/
def classificationTable (c : CURLcode) (h : Int) : errorcodeclass :=
  if c ∈ [CURLE_COULDNT_RESOLVE_HOST, CURLE_COULDNT_CONNECT, CURLE_OPERATION_TIMEDOUT,
      CURLE_BAD_CONTENT_ENCODING, CURLE_REMOTE_FILE_NOT_FOUND] then
    errorcodeclass.ErrorRetry
  else if c ∈ [CURLE_GOT_NOTHING, CURLE_PARTIAL_FILE, CURLE_SEND_ERROR,
      CURLE_RECV_ERROR] then
    errorcodeclass.TcpRetry
  else if h = 420 then
    errorcodeclass.RateLimited
  else if h ∈ [(404 : Int), 406, 413, 416] then
    errorcodeclass.Invalid
  else
    errorcodeclass.StatusRetry

/-! ## Line reconstruction (`isEndOfTweet`, `parsetweets`, lines 11-45) -/

/-- A `std::string`: the sequence of its bytes. -/
abbrev Str := List Char

/-- The byte written `\r` in the source. -/
def CR : Char := Char.ofNat 13

/-- The byte written `\n` in the source. -/
def LF : Char := Char.ofNat 10

/-- The delimiter literal of `split(s, "\r\n")`. -/
def CRLF : Str := [CR, LF]

/-- The lambda `isEndOfTweet` of the source: `false` when `s.size() < 2`,
otherwise the test of the bytes at `s.size() - 2` and `s.size() - 1`. -/
def isEndOfTweet (s : Str) : Bool :=
  if s.length < 2 then false
  else
    let it0 := s.get? (s.length - 2)
    let it1 := s.get? (s.length - 1)
    it0 == some CR && it1 == some LF

/-- Modelled from the spec: the helper `split(s, "\r\n")`, which `tweets.h`
calls but does not define.  The chunk is cut after every occurrence of the
delimiter, found left to right; the delimiter stays attached to the end of
the piece it completes, and the text after the last delimiter (possibly
empty) is the trailing piece. -/
def split : Str → List Str
  | [] => [[]]
  | [c] => [[c]]
  | c :: d :: rest =>
    if c = CR ∧ d = LF then
      [c, d] :: split rest
    else
      match split (d :: rest) with
      | [] => [[c]]
      | p :: ps => (c :: p) :: ps

/-- The observable `strings`: every chunk is split (`concat_map` keeps the
order of the chunks and of the pieces inside a chunk) and the empty pieces
are filtered out. -/
def strings (chunks : List Str) : List Str :=
  (chunks.flatMap split).filter (fun s => !s.isEmpty)

/-- State of `window_toggle(closes | start_with(0), ...)` while `strings` is
delivered: the windows already closed, oldest first, and the pieces delivered
so far to the window that is open. -/
structure Windows where
  closed : List (List Str)
  current : List Str
  deriving DecidableEq, Repr

/-- One piece delivered to `window_toggle`.  The piece joins the open window.
When the piece passes `filter(isEndOfTweet)` it is an item of `closes`, "the
last string in each line": it closes the open window, and as the next item of
the openings `closes | start_with(0)` it opens a fresh, empty one. -/
def windowStep (w : Windows) (piece : Str) : Windows :=
  if isEndOfTweet piece then
    { closed := w.closed ++ [w.current ++ [piece]], current := [] }
  else
    { closed := w.closed, current := w.current ++ [piece] }

/-- The observable `linewindows` after the given pieces: the first window is
opened by `start_with(0)`. -/
def linewindows (pieces : List Str) : Windows :=
  pieces.foldl windowStep { closed := [], current := [] }

/-- The reduction `w | start_with<string>("") | sum()` of one window. -/
def sumWindow (w : List Str) : Str :=
  w.foldl (fun acc s => acc ++ s) []

/-- The observable `lines` while the source is still running: one line for
every window closed so far, in the order in which the windows closed. -/
def lines (chunks : List Str) : List Str :=
  (linewindows (strings chunks)).closed.map sumWindow

/-- The observable `lines` once the source has completed: `on_completed`
also completes the window that is still open, whose sum is the last line. -/
def linesCompleted (chunks : List Str) : List Str :=
  lines chunks ++ [sumWindow (linewindows (strings chunks)).current]

/-- A piece ends in the delimiter, in the words of the specification ("a
piece ending in the delimiter signals line complete"). -/
def endsInDelimiter (s : Str) : Prop := CRLF <:+ s

/-- The pieces of one line, in the words of the specification: consecutive
pieces none of which ends in the delimiter, up to and including the first
piece that does. -/
def IsLineGroup (g : List Str) : Prop :=
  ∃ init last, g = init ++ [last] ∧ (∀ p ∈ init, ¬ endsInDelimiter p) ∧ endsInDelimiter last

/-! ## Keepalive filter and sharder (`parsetweets`, lines 47-53) -/

/-- The call `s.find_first_not_of(set)` of `std::string`: the first position
whose byte is not in `set`; `none` stands for `string::npos`. -/
def find_first_not_of (s : Str) (set : Str) : Option Nat :=
  match s with
  | [] => none
  | c :: rest =>
    if set.contains c then (find_first_not_of rest set).map (fun i => i + 1)
    else some 0

/-- The predicate of the `filter` applied to `lines`:
`s.size() > 2 && s.find_first_not_of("\r\n") != string::npos`. -/
def keepLine (s : Str) : Bool :=
  decide (s.length > 2) && (find_first_not_of s CRLF).isSome

/-- The lines that pass the filter, in the order of `lines`. -/
def filterKeepalive (ls : List Str) : List Str :=
  ls.filter keepLine

/-- The increment `++count` of an `int`, wrapping in two's complement. -/
def incrInt (count : Int) : Int :=
  (count + 1 + 2 ^ 31) % 2 ^ 32 - 2 ^ 31

/-- Conversion of an `int` to `unsigned`, as the operand of `%` whose other
operand is the `unsigned` returned by `hardware_concurrency()`. -/
def toUnsigned (z : Int) : Nat :=
  (z % 2 ^ 32).toNat

/-- The key selector of `group_by`, a mutable lambda that owns `count`:
`return ++count % std::thread::hardware_concurrency();`.  Given the value of
`count` before the call it returns the value after the call and the key. -/
def keySelector (hardware_concurrency : Nat) (count : Int) : Int × Nat :=
  let count1 := incrInt count
  (count1, toUnsigned count1 % hardware_concurrency)

/-- The keys that `group_by` gives to the lines it receives, in order, when
the counter holds `count` before the first of them. -/
def group_by_from (hardware_concurrency : Nat) : Int → List Str → List (Nat × Str)
  | _, [] => []
  | count, l :: ls =>
    ((keySelector hardware_concurrency count).2, l) ::
      group_by_from hardware_concurrency (keySelector hardware_concurrency count).1 ls

/-- The operator `group_by` of `parsetweets`: `int count = 0;` is captured by
value when the pipeline is built. -/
def group_by (hardware_concurrency : Nat) (ls : List Str) : List (Nat × Str) :=
  group_by_from hardware_concurrency 0 ls

/-- The lines that reach the sharder, each with its shard key. -/
def sharded (hardware_concurrency : Nat) (chunks : List Str) : List (Nat × Str) :=
  group_by hardware_concurrency (filterKeepalive (lines chunks))

/-! ## Decoder (`parsetweets`, lines 54-62) -/

/-- What the subscriber of `merge(tweetthread)` has received: the Records
delivered, in the order of delivery, the error that ended the output, if one
did, and the lines that their shards have not decoded yet. -/
structure Decoded (R E : Type) where
  records : List R
  error : Option E
  pending : List (Nat × Str)

/-- The next line of the shard `key` among the pending lines, with the
pending lines that remain: a shard takes its lines in the order in which
`group_by` gave them to it. -/
def nextOfShard (key : Nat) : List (Nat × Str) → Option (Str × List (Nat × Str))
  | [] => none
  | (k, line) :: rest =>
    if k = key then some (line, rest)
    else (nextOfShard key rest).map (fun r => (r.1, (k, line) :: r.2))

/-- The output of the merged shards.  Every shard has its own
`observe_on(worker)` and decodes its lines with the selector
`Tweet(json::parse(line))` of `rxo::map`; `json::parse` is the parameter
`parse`.  The shards run independently, and `merge(tweetthread)` delivers
their results one at a time: `schedule` lists the shard keys in the order in
which the shards hand their next result to `merge`, an order that the source
does not fix (a key whose shard has no pending line does nothing).  No
operator of `parsetweets` handles an error: an exception thrown by the
selector is delivered as `on_error` by `rxo::map`, and `merge` passes the
`on_error` of a shard on to its subscriber, which ends the output. -/
def decodeShards {R E : Type} (parse : Str → Except E R) :
    List Nat → List (Nat × Str) → Decoded R E
  | [], pending => { records := [], error := none, pending := pending }
  | key :: schedule, pending =>
    match nextOfShard key pending with
    | none => decodeShards parse schedule pending
    | some (line, rest) =>
      match parse line with
      | Except.error e => { records := [], error := some e, pending := rest }
      | Except.ok r =>
        { records := r :: (decodeShards parse schedule rest).records,
          error := (decodeShards parse schedule rest).error,
          pending := (decodeShards parse schedule rest).pending }

/-- The function returned by `parsetweets`, from the chunks delivered so far
and the order in which the shards deliver, to what the subscriber has
received. -/
def parsetweets {R E : Type} (hardware_concurrency : Nat) (parse : Str → Except E R)
    (schedule : List Nat) (chunks : List Str) : Decoded R E :=
  decodeShards parse schedule (sharded hardware_concurrency chunks)

/-- What the `std::exception_ptr` given to `on_error_resume_next` holds, as
told apart by the `catch` clauses. -/
inductive Failure where
  | http (ex : http_exception)
  | timeout
  | exception
  | unknown
  deriving DecidableEq, Repr

/-- How an `observable<string>` that delivers no item ends. -/
inductive Ending where
  | completed
  | error (ep : Failure)
  deriving DecidableEq, Repr

/-- An `observable<string>` that delivers no item: the seconds that pass
before it ends, and how it ends. -/
structure Source where
  seconds : Nat
  ending : Ending
  deriving DecidableEq, Repr

/-- The source `observable<>::empty<string>()`. -/
def Source.empty : Source := { seconds := 0, ending := Ending.completed }

/-- The source `observable<>::error<string>(ep, tweetthread)`. -/
def Source.error (ep : Failure) : Source := { seconds := 0, ending := Ending.error ep }

/-- The source `observable<>::timer(period, tweetthread)`, which delivers one
item after `period` and completes. -/
def Source.timer (seconds : Nat) : Source := { seconds := seconds, ending := Ending.completed }

/-- Modelled from the spec: the helper `stringandignore()`, which `tweets.h`
calls but does not define.  It turns the timer into a source of strings that
delivers nothing and ends when the timer ends ("wait, then reconnect"). -/
def stringandignore (s : Source) : Source := s

/-- What the handler given to `on_error_resume_next` does: it returns a
source to resume with, or calls `terminate()`. -/
inductive Recovery where
  | resume (s : Source)
  | terminate
  deriving DecidableEq, Repr

/-- The handler given to `on_error_resume_next`: the `catch` clauses in
order, and inside the first the `switch` on `errorclassfrom(ex)`, where
`ErrorRetry` falls through to `StatusRetry` and `Invalid` to `default`. -/
def on_error_resume_next (ep : Failure) : Recovery :=
  match ep with
  | Failure.http ex =>
    match errorclassfrom ex with
    | errorcodeclass.TcpRetry => Recovery.resume Source.empty
    | errorcodeclass.ErrorRetry => Recovery.resume (stringandignore (Source.timer 5))
    | errorcodeclass.StatusRetry => Recovery.resume (stringandignore (Source.timer 5))
    | errorcodeclass.RateLimited => Recovery.resume (stringandignore (Source.timer (1 * 60)))
    | errorcodeclass.Invalid => Recovery.resume (Source.error ep)
  | Failure.timeout => Recovery.resume Source.empty
  | Failure.exception => Recovery.terminate
  | Failure.unknown => Recovery.terminate

/-- What happens to the stream returned by `twitter_stream_reconnection`
after a failure of the chunk source. -/
inductive Outcome where
  | resubscribed (afterSeconds : Nat)
  | ended (ep : Failure)
  | aborted
  deriving DecidableEq, Repr

/-- The operator `repeat(0)` applied to the resumed stream: when the source
it resumed with completes, the chunk source is subscribed again; an error is
passed on and ends the stream. -/
def twitter_stream_reconnection (ep : Failure) : Outcome :=
  match on_error_resume_next ep with
  | Recovery.resume s =>
    match s.ending with
    | Ending.completed => Outcome.resubscribed s.seconds
    | Ending.error e => Outcome.ended e
  | Recovery.terminate => Outcome.aborted

/-- The handler given to `on_error_resume_next`, with the classifier that the
first `catch` clause calls taken as a parameter: the clause for
`timeout_error` and the two clauses that call `terminate()` make no call. -/
def on_error_resume_next_with (classify : http_exception → errorcodeclass)
    (ep : Failure) : Recovery :=
  match ep with
  | Failure.http ex =>
    match classify ex with
    | errorcodeclass.TcpRetry => Recovery.resume Source.empty
    | errorcodeclass.ErrorRetry => Recovery.resume (stringandignore (Source.timer 5))
    | errorcodeclass.StatusRetry => Recovery.resume (stringandignore (Source.timer 5))
    | errorcodeclass.RateLimited => Recovery.resume (stringandignore (Source.timer (1 * 60)))
    | errorcodeclass.Invalid => Recovery.resume (Source.error ep)
  | Failure.timeout => Recovery.resume Source.empty
  | Failure.exception => Recovery.terminate
  | Failure.unknown => Recovery.terminate

/-! ## Record filter (`onlytweets`, lines 66-73) -/

/-- A JSON document as held by a `Tweet`: the value kinds of the `json` type;
a number is kept as its text. -/
inductive json where
  | null
  | boolean (b : Bool)
  | number (text : Str)
  | string (s : Str)
  | array (items : List json)
  | object (members : List (Str × json))

/-- The member function `count(key)` of `json`: the number of members with
that key when the value is an object, where keys are unique, and 0 for every
other kind of value. -/
def json.count (j : json) (key : Str) : Nat :=
  match j with
  | json.object members => if members.any (fun m => m.1 == key) then 1 else 0
  | _ => 0

/-- The type `Tweet` as far as `tweets.h` reads it: `tw.data->tweet`. -/
structure Tweet where
  tweet : json

/-- The predicate of the `filter` in `onlytweets`:
`!!tweet.count("timestamp_ms")`. -/
def isTweet (tw : Tweet) : Bool :=
  tw.tweet.count "timestamp_ms".toList != 0

/-- The function returned by `onlytweets`: the Records that pass the filter,
in the order of the source. -/
def onlytweets (s : List Tweet) : List Tweet :=
  s.filter isTweet

/-- A Record has a "timestamp_ms" attribute, in the words of the
specification: its document is an object with a member of that name. -/
def hasTimestamp (tw : Tweet) : Prop :=
  ∃ members value, tw.tweet = json.object members ∧
    ("timestamp_ms".toList, value) ∈ members

/-! ## Reads of `isEndOfTweet` (lines 11-16) -/

/-- The positions of `s` that `isEndOfTweet` dereferences, in order: none
when `s.size() < 2`; otherwise `*it0`, and `*it1` when the left operand of
`&&` is true. -/
def isEndOfTweetReads (s : Str) : List Nat :=
  if s.length < 2 then []
  else if s.get? (s.length - 2) == some CR then [s.length - 2, s.length - 1]
  else [s.length - 2]

end tweets

namespace tweets

theorem errorclassfrom_table (c : CURLcode) (h : Int) :
    errorclassfrom ⟨c, h⟩ = classificationTable c h := by
  unfold errorclassfrom classificationTable
  simp only [List.mem_cons, List.mem_singleton, List.not_mem_nil, or_false]
  by_cases h1 : c = CURLE_COULDNT_RESOLVE_HOST ∨ c = CURLE_COULDNT_CONNECT ∨
      c = CURLE_OPERATION_TIMEDOUT ∨ c = CURLE_BAD_CONTENT_ENCODING ∨
      c = CURLE_REMOTE_FILE_NOT_FOUND
  · simp only [h1, if_true]
  · simp only [h1, if_false]
    by_cases h2 : c = CURLE_GOT_NOTHING ∨ c = CURLE_PARTIAL_FILE ∨
        c = CURLE_SEND_ERROR ∨ c = CURLE_RECV_ERROR
    · simp only [h2, if_true]
    · simp only [h2, if_false]
      by_cases h3 : h = 420
      · subst h3
        simp
      · simp only [h3, if_false]
        by_cases h4 : h = 404 ∨ h = 406 ∨ h = 413 ∨ h = 416
        · have h5 : h > 200 := by rcases h4 with h4 | h4 | h4 | h4 <;> omega
          simp [h4, h5]
        · simp only [h4, if_false]
          split <;> rfl

/-- C1: for every failure (transport code `c`, HTTP status `h`),
`errorclassfrom` returns exactly what the classification table gives when its
rows are evaluated in order. -/
theorem errorclassfrom_eq_table (c : CURLcode) (h : Int) :
    errorclassfrom ⟨c, h⟩ = classificationTable c h :=
  errorclassfrom_table c h


/-! ## Shared lemmas on the line reconstruction -/

theorem isEndOfTweet_append_two (t : Str) (a b : Char) :
    isEndOfTweet (t ++ [a, b]) = (a == CR && b == LF) := by
  have h1 : (t ++ [a, b]).length - 2 = t.length := by simp
  have h2 : (t ++ [a, b]).length - 1 = t.length + 1 := by simp
  have h3 : ¬ (t ++ [a, b]).length < 2 := by simp
  unfold isEndOfTweet
  rw [if_neg h3, h1, h2]
  have g1 : (t ++ [a, b]).get? t.length = some a := by
    rw [List.get?_eq_getElem?, List.getElem?_append_right (le_refl _)]
    simp
  have g2 : (t ++ [a, b]).get? (t.length + 1) = some b := by
    rw [List.get?_eq_getElem?, List.getElem?_append_right (Nat.le_succ _)]
    simp
  simp only [g1, g2]
  cases ha : a == CR <;> cases hb : b == LF <;> simp_all

theorem isEndOfTweet_short (s : Str) (h : s.length < 2) : isEndOfTweet s = false := by
  unfold isEndOfTweet
  rw [if_pos h]

theorem isEndOfTweet_iff (s : Str) :
    isEndOfTweet s = true ↔ ∃ t, s = t ++ CRLF := by
  constructor
  · intro h
    rcases List.eq_nil_or_concat s with rfl | ⟨s1, b, rfl⟩
    · simp [isEndOfTweet] at h
    · rcases List.eq_nil_or_concat s1 with rfl | ⟨s2, a, rfl⟩
      · simp [isEndOfTweet] at h
      · have e : (s2.concat a).concat b = s2 ++ [a, b] := by simp
        rw [e, isEndOfTweet_append_two] at h
        simp only [Bool.and_eq_true, beq_iff_eq] at h
        refine ⟨s2, ?_⟩
        rw [e, h.1, h.2]
        rfl
  · rintro ⟨t, rfl⟩
    unfold CRLF
    rw [isEndOfTweet_append_two]
    simp

theorem sumWindow_from (w : List Str) (acc : Str) :
    w.foldl (fun acc s => acc ++ s) acc = acc ++ w.flatten := by
  induction w generalizing acc with
  | nil => simp
  | cons p ps ih => simp [List.foldl_cons, ih, List.append_assoc]

theorem sumWindow_eq_flatten (w : List Str) : sumWindow w = w.flatten := by
  unfold sumWindow
  rw [sumWindow_from]
  rfl


theorem isEndOfTweet_eq_true_iff (s : Str) : isEndOfTweet s = true ↔ endsInDelimiter s := by
  rw [isEndOfTweet_iff]
  constructor
  · rintro ⟨t, rfl⟩
    exact ⟨t, rfl⟩
  · rintro ⟨t, h⟩
    exact ⟨t, h.symm⟩

theorem isEndOfTweet_eq_false_iff (s : Str) : isEndOfTweet s = false ↔ ¬ endsInDelimiter s := by
  rw [← isEndOfTweet_eq_true_iff]
  cases isEndOfTweet s <;> simp

/-- The invariant of `window_toggle`: the pieces delivered so far are the
closed windows followed by the open one, every closed window is the group of
one line, and no piece of the open window ends in the delimiter. -/
theorem windowStep_invariant (w : Windows) (seen : List Str) (piece : Str)
    (h1 : seen = w.closed.flatten ++ w.current)
    (h2 : ∀ g ∈ w.closed, IsLineGroup g)
    (h3 : ∀ p ∈ w.current, ¬ endsInDelimiter p) :
    seen ++ [piece] = (windowStep w piece).closed.flatten ++ (windowStep w piece).current ∧
    (∀ g ∈ (windowStep w piece).closed, IsLineGroup g) ∧
    (∀ p ∈ (windowStep w piece).current, ¬ endsInDelimiter p) := by
  unfold windowStep
  by_cases hp : isEndOfTweet piece = true
  · rw [if_pos hp]
    refine ⟨?_, ?_, ?_⟩
    · simp [h1, List.flatten_append]
    · intro g hg
      rcases List.mem_append.mp hg with hg | hg
      · exact h2 g hg
      · rw [List.mem_singleton] at hg
        subst hg
        exact ⟨w.current, piece, rfl, h3, (isEndOfTweet_eq_true_iff piece).mp hp⟩
    · intro p hp2
      simp at hp2
  · rw [if_neg hp]
    refine ⟨?_, h2, ?_⟩
    · simp [h1]
    · intro p hp2
      rcases List.mem_append.mp hp2 with hp2 | hp2
      · exact h3 p hp2
      · rw [List.mem_singleton] at hp2
        subst hp2
        rw [← isEndOfTweet_eq_false_iff]
        simpa using hp

theorem foldl_windowStep_invariant (pieces : List Str) (w : Windows) (seen : List Str)
    (h1 : seen = w.closed.flatten ++ w.current)
    (h2 : ∀ g ∈ w.closed, IsLineGroup g)
    (h3 : ∀ p ∈ w.current, ¬ endsInDelimiter p) :
    seen ++ pieces = (pieces.foldl windowStep w).closed.flatten ++
        (pieces.foldl windowStep w).current ∧
    (∀ g ∈ (pieces.foldl windowStep w).closed, IsLineGroup g) ∧
    (∀ p ∈ (pieces.foldl windowStep w).current, ¬ endsInDelimiter p) := by
  induction pieces generalizing w seen with
  | nil => exact ⟨by simpa using h1, h2, h3⟩
  | cons piece rest ih =>
    obtain ⟨k1, k2, k3⟩ := windowStep_invariant w seen piece h1 h2 h3
    have := ih (windowStep w piece) (seen ++ [piece]) k1 k2 k3
    simpa [List.foldl_cons, List.append_assoc] using this

theorem linewindows_invariant (pieces : List Str) :
    pieces = (linewindows pieces).closed.flatten ++ (linewindows pieces).current ∧
    (∀ g ∈ (linewindows pieces).closed, IsLineGroup g) ∧
    (∀ p ∈ (linewindows pieces).current, ¬ endsInDelimiter p) := by
  have := foldl_windowStep_invariant pieces { closed := [], current := [] } [] (by simp)
    (by simp) (by simp)
  simpa [linewindows] using this

theorem lines_eq_map_flatten (chunks : List Str) :
    lines chunks = (linewindows (strings chunks)).closed.map List.flatten := by
  unfold lines
  exact List.map_congr_left (fun w _ => sumWindow_eq_flatten w)

theorem strings_ne_nil (chunks : List Str) : ∀ p ∈ strings chunks, p ≠ [] := by
  intro p hp
  unfold strings at hp
  rw [List.mem_filter] at hp
  intro h
  rw [h] at hp
  simp at hp

/-- C2: the lines emitted by the Line Reconstructor are, in arrival order,
one per boundary: the non-empty pieces split as consecutive groups, each group
being the pieces received since the previous boundary up to and including the
first piece that ends in the delimiter, and each line the concatenation of its
group; the pieces after the last boundary are in no line yet.  The chunks
"ab", "c\r\n", "d", "\r\n", "\r\n", "ef\r\n" give the lines "abc\r\n",
"d\r\n", "\r\n", "ef\r\n". -/
theorem lines_one_per_boundary :
    (∀ chunks : List Str,
      strings chunks = (chunks.flatMap split).filter (fun p => decide (p ≠ [])) ∧
      ∃ (groups : List (List Str)) (rest : List Str),
        strings chunks = groups.flatten ++ rest ∧
        (∀ g ∈ groups, IsLineGroup g) ∧
        (∀ p ∈ rest, ¬ endsInDelimiter p) ∧
        lines chunks = groups.map List.flatten) ∧
    lines ["ab".toList, "c\r\n".toList, "d".toList, "\r\n".toList, "\r\n".toList,
        "ef\r\n".toList] =
      ["abc\r\n".toList, "d\r\n".toList, "\r\n".toList, "ef\r\n".toList] := by
  refine ⟨fun chunks => ⟨?_, ?_⟩, by decide⟩
  · unfold strings
    apply List.filter_congr
    intro p _
    cases p <;> simp
  · obtain ⟨k1, k2, k3⟩ := linewindows_invariant (strings chunks)
    exact ⟨_, _, k1, k2, k3, lines_eq_map_flatten chunks⟩


theorem CR_ne_LF : CR ≠ LF := by decide

theorem split_delim_cons (rest : Str) : split (CR :: LF :: rest) = CRLF :: split rest := by
  rw [split]
  simp [CRLF]

theorem split_cons_of_ne (c d : Char) (rest : Str) (h : ¬ (c = CR ∧ d = LF))
    (p : Str) (ps : List Str) (hs : split (d :: rest) = p :: ps) :
    split (c :: d :: rest) = (c :: p) :: ps := by
  rw [split, if_neg h, hs]

/-- A text without the delimiter inside it, followed by the delimiter, is the
first piece of the split. -/
theorem split_text_delim (t rest : Str) (h : ¬ CRLF <:+: t) :
    split (t ++ CRLF ++ rest) = (t ++ CRLF) :: split rest := by
  induction t with
  | nil => exact split_delim_cons rest
  | cons c t ih =>
    have ht : ¬ CRLF <:+: t := fun hin => h (hin.trans (List.suffix_cons c t).isInfix)
    have ih2 := ih ht
    cases t with
    | nil =>
      apply split_cons_of_ne c CR (LF :: rest) (fun hc => CR_ne_LF hc.2)
      exact ih2
    | cons d t2 =>
      apply split_cons_of_ne c d (t2 ++ CRLF ++ rest) _ _ _ ih2
      rintro ⟨rfl, rfl⟩
      exact h ⟨[], t2, rfl⟩


theorem split_nil : split [] = [[]] := by
  rw [split]

theorem split_flatten_lines (texts : List Str) (h : ∀ t ∈ texts, ¬ CRLF <:+: t) :
    split (texts.map (fun t => t ++ CRLF)).flatten = texts.map (fun t => t ++ CRLF) ++ [[]] := by
  induction texts with
  | nil => simpa using split_nil
  | cons t ts ih =>
    have h1 : ¬ CRLF <:+: t := h t (List.mem_cons_self t ts)
    have h2 := ih (fun u hu => h u (List.mem_cons_of_mem t hu))
    rw [List.map_cons, List.flatten_cons, split_text_delim t _ h1, h2]
    rfl

theorem split_one_line (t : Str) (h : ¬ CRLF <:+: t) : split (t ++ CRLF) = [t ++ CRLF, []] := by
  have := split_text_delim t [] h
  rw [List.append_nil, split_nil] at this
  exact this

theorem filter_nonempty_lines (texts : List Str) :
    (texts.map (fun t => t ++ CRLF)).filter (fun s => !s.isEmpty) =
      texts.map (fun t => t ++ CRLF) := by
  rw [List.filter_eq_self]
  intro s hs
  rw [List.mem_map] at hs
  obtain ⟨t, _, rfl⟩ := hs
  cases t <;> simp [CRLF]

theorem strings_single_chunk (texts : List Str) (h : ∀ t ∈ texts, ¬ CRLF <:+: t) :
    strings [(texts.map (fun t => t ++ CRLF)).flatten] = texts.map (fun t => t ++ CRLF) := by
  unfold strings
  rw [List.flatMap_cons, List.flatMap_nil, List.append_nil, split_flatten_lines texts h,
    List.filter_append, filter_nonempty_lines]
  simp

theorem strings_line_chunks (texts : List Str) (h : ∀ t ∈ texts, ¬ CRLF <:+: t) :
    strings (texts.map (fun t => t ++ CRLF)) = texts.map (fun t => t ++ CRLF) := by
  unfold strings
  induction texts with
  | nil => rfl
  | cons t ts ih =>
    have h1 : ¬ CRLF <:+: t := h t (List.mem_cons_self t ts)
    have h2 := ih (fun u hu => h u (List.mem_cons_of_mem t hu))
    rw [List.map_cons, List.flatMap_cons, split_one_line t h1, List.filter_append, h2]
    cases t <;> simp [CRLF]

/-- When every piece ends a line, every piece is a window of its own. -/
theorem foldl_windowStep_all_closing (pieces : List Str) (closed : List (List Str))
    (h : ∀ p ∈ pieces, isEndOfTweet p = true) :
    pieces.foldl windowStep { closed := closed, current := [] } =
      { closed := closed ++ pieces.map (fun p => [p]), current := [] } := by
  induction pieces generalizing closed with
  | nil => simp
  | cons p ps ih =>
    have hp : isEndOfTweet p = true := h p (List.mem_cons_self p ps)
    rw [List.foldl_cons]
    have e : windowStep { closed := closed, current := [] } p =
        { closed := closed ++ [[p]], current := [] } := by
      unfold windowStep
      rw [if_pos hp]
      rfl
    rw [e, ih _ (fun q hq => h q (List.mem_cons_of_mem p hq))]
    simp

theorem linewindows_lines (texts : List Str) :
    linewindows (texts.map (fun t => t ++ CRLF)) =
      { closed := (texts.map (fun t => t ++ CRLF)).map (fun p => [p]), current := [] } := by
  unfold linewindows
  rw [foldl_windowStep_all_closing]
  · simp
  · intro p hp
    rw [List.mem_map] at hp
    obtain ⟨t, _, rfl⟩ := hp
    exact (isEndOfTweet_iff _).mpr ⟨t, rfl⟩

theorem map_sumWindow_singletons (ls : List Str) :
    (ls.map (fun p => [p])).map sumWindow = ls := by
  induction ls with
  | nil => rfl
  | cons l ls ih =>
    rw [List.map_cons, List.map_cons, ih, sumWindow_eq_flatten]
    simp

/-- C3: for every list of complete lines (each a text without the delimiter
inside it, followed by the delimiter), one chunk that is the concatenation of
the lines and the chunks that hold one line each are reconstructed to the same
lines, in the same order: the given lines themselves, while the source runs
and also once it has completed. -/
theorem lines_single_chunk_eq_line_chunks (texts : List Str)
    (h : ∀ t ∈ texts, ¬ CRLF <:+: t) :
    lines [(texts.map (fun t => t ++ CRLF)).flatten] = lines (texts.map (fun t => t ++ CRLF)) ∧
    lines (texts.map (fun t => t ++ CRLF)) = texts.map (fun t => t ++ CRLF) ∧
    linesCompleted [(texts.map (fun t => t ++ CRLF)).flatten] =
      linesCompleted (texts.map (fun t => t ++ CRLF)) := by
  have e1 : lines (texts.map (fun t => t ++ CRLF)) = texts.map (fun t => t ++ CRLF) := by
    unfold lines
    rw [strings_line_chunks texts h, linewindows_lines, map_sumWindow_singletons]
  have e2 : lines [(texts.map (fun t => t ++ CRLF)).flatten] =
      texts.map (fun t => t ++ CRLF) := by
    unfold lines
    rw [strings_single_chunk texts h, linewindows_lines, map_sumWindow_singletons]
  refine ⟨e2.trans e1.symm, e1, ?_⟩
  unfold linesCompleted
  rw [e1, e2, strings_single_chunk texts h, strings_line_chunks texts h]

/-- Witness of C3 on the two lines "ab\r\n" and "c\r\n". -/
theorem lines_single_chunk_eq_line_chunks_witness :
    (∀ t ∈ ["ab".toList, "c".toList], ¬ CRLF <:+: t) ∧
    lines ["ab\r\nc\r\n".toList] = lines ["ab\r\n".toList, "c\r\n".toList] ∧
    lines ["ab\r\n".toList, "c\r\n".toList] = ["ab\r\n".toList, "c\r\n".toList] ∧
    linesCompleted ["ab\r\nc\r\n".toList] =
      linesCompleted ["ab\r\n".toList, "c\r\n".toList] :=
  ⟨by decide, lines_single_chunk_eq_line_chunks ["ab".toList, "c".toList] (by decide)⟩


/-- C4: evaluation of the Line Reconstructor on two chunk sequences with the
same text "a\r\nb\r\n".  When the chunk boundary falls between the two bytes
of the first delimiter, no piece ends the first line and one line holding
both records is emitted; as one chunk the text gives two lines. -/
theorem lines_delimiter_across_chunks :
    ["a\r".toList, "\nb\r\n".toList].flatten = ["a\r\nb\r\n".toList].flatten ∧
    strings ["a\r".toList, "\nb\r\n".toList] = ["a\r".toList, "\nb\r\n".toList] ∧
    lines ["a\r".toList, "\nb\r\n".toList] = ["a\r\nb\r\n".toList] ∧
    lines ["a\r\nb\r\n".toList] = ["a\r\n".toList, "b\r\n".toList] := by
  decide

theorem incrInt_ofNat (n : Nat) (h : n + 1 < 2 ^ 31) : incrInt (n : Int) = ((n + 1 : Nat) : Int) := by
  unfold incrInt
  norm_num at h ⊢
  omega

theorem toUnsigned_ofNat (n : Nat) (h : n < 2 ^ 31) : toUnsigned (n : Int) = n := by
  unfold toUnsigned
  norm_num at h ⊢
  omega

theorem group_by_from_getElem? (hc : Nat) (ls : List Str) (n k : Nat)
    (h : n + ls.length < 2 ^ 31) :
    (group_by_from hc (n : Int) ls)[k]? = ls[k]?.map (fun l => ((n + k + 1) % hc, l)) := by
  induction ls generalizing n k with
  | nil => simp [group_by_from]
  | cons l ls ih =>
    have h1 : n + 1 < 2 ^ 31 := by
      rw [List.length_cons] at h
      omega
    have h2 : (n + 1) + ls.length < 2 ^ 31 := by
      rw [List.length_cons] at h
      omega
    have e1 : (keySelector hc (n : Int)).1 = ((n + 1 : Nat) : Int) := incrInt_ofNat n h1
    have e2 : (keySelector hc (n : Int)).2 = (n + 1) % hc := by
      show toUnsigned (incrInt (n : Int)) % hc = (n + 1) % hc
      rw [incrInt_ofNat n h1, toUnsigned_ofNat (n + 1) h1]
    rw [group_by_from, e1, e2]
    cases k with
    | zero => simp
    | succ k =>
      rw [List.getElem?_cons_succ, List.getElem?_cons_succ, ih (n + 1) k h2]
      have e3 : n + 1 + k + 1 = n + (k + 1) + 1 := by omega
      rw [e3]

/-- C5 as stated fails: with four shards the first lines get the keys
1, 2, 3, 0, 1 and the line at position 0 does not get the key 0. -/
theorem shard_key_not_position_mod :
    (group_by 4 ["aa\r\n".toList, "bb\r\n".toList, "cc\r\n".toList, "dd\r\n".toList,
        "ee\r\n".toList]).map Prod.fst = [1, 2, 3, 0, 1] ∧
    ((group_by 4 ["aa\r\n".toList, "bb\r\n".toList, "cc\r\n".toList, "dd\r\n".toList,
        "ee\r\n".toList]).map Prod.fst)[0]? ≠ some (0 % 4) := by
  decide

/-- C5 (amended): for every shard count of at least 1 and every sequence of
fewer than 2^31 lines that reach the sharder, the line at 0-indexed position
`k` is assigned the shard key `(k + 1) mod ShardCount`, the counter being
incremented before it is used. -/
theorem shard_key_succ_mod (hardware_concurrency : Nat) (_hc : 1 ≤ hardware_concurrency)
    (ls : List Str) (hlen : ls.length < 2 ^ 31) (k : Nat) (hk : k < ls.length) :
    (group_by hardware_concurrency ls)[k]? =
      some ((k + 1) % hardware_concurrency, ls[k]) := by
  unfold group_by
  have := group_by_from_getElem? hardware_concurrency ls 0 k (by simpa using hlen)
  rw [Nat.cast_zero] at this
  rw [this, List.getElem?_eq_getElem hk]
  simp

/-- Witness of the amended C5: four shards, the line at position 1 of two. -/
theorem shard_key_succ_mod_witness :
    1 ≤ 4 ∧ ["aa\r\n".toList, "bb\r\n".toList].length < 2 ^ 31 ∧
    (group_by 4 ["aa\r\n".toList, "bb\r\n".toList])[1]? = some (2, "bb\r\n".toList) :=
  ⟨by decide, by decide,
    shard_key_succ_mod 4 (by decide) ["aa\r\n".toList, "bb\r\n".toList] (by decide) 1
      (by decide)⟩


/-- C7: for every HTTP failure the recovery action follows from its class:
`TcpRetry` resumes with the immediately completing source, `ErrorRetry` and
`StatusRetry` both resume after a 5 second timer, `RateLimited` resumes after
a 60 second timer; each of the four ends in completion, so that the source is
subscribed again, and two failures of the same such class get the same
action. -/
theorem recovery_action_of_class (ex : http_exception) :
    (errorclassfrom ex = errorcodeclass.TcpRetry →
      on_error_resume_next (Failure.http ex) = Recovery.resume ⟨0, Ending.completed⟩ ∧
      twitter_stream_reconnection (Failure.http ex) = Outcome.resubscribed 0) ∧
    (errorclassfrom ex = errorcodeclass.ErrorRetry ∨
        errorclassfrom ex = errorcodeclass.StatusRetry →
      on_error_resume_next (Failure.http ex) = Recovery.resume ⟨5, Ending.completed⟩ ∧
      twitter_stream_reconnection (Failure.http ex) = Outcome.resubscribed 5) ∧
    (errorclassfrom ex = errorcodeclass.RateLimited →
      on_error_resume_next (Failure.http ex) = Recovery.resume ⟨60, Ending.completed⟩ ∧
      twitter_stream_reconnection (Failure.http ex) = Outcome.resubscribed 60) ∧
    (∀ ex2 : http_exception, errorclassfrom ex2 = errorclassfrom ex →
      errorclassfrom ex ≠ errorcodeclass.Invalid →
      on_error_resume_next (Failure.http ex2) = on_error_resume_next (Failure.http ex)) := by
  refine ⟨?_, ?_, ?_, ?_⟩
  · intro h
    simp [twitter_stream_reconnection, on_error_resume_next, h, Source.empty]
  · intro h
    rcases h with h | h <;>
      simp [twitter_stream_reconnection, on_error_resume_next, h, Source.timer, stringandignore]
  · intro h
    simp [twitter_stream_reconnection, on_error_resume_next, h, Source.timer, stringandignore]
  · intro ex2 h2 hne
    simp only [on_error_resume_next, h2]
    cases h : errorclassfrom ex <;> simp_all

/-- Witness of C7: the failures (recv-error, no status), (connect failure, no
status), (no transport error, status 500) and (no transport error, status
420). -/
theorem recovery_action_of_class_witness :
    twitter_stream_reconnection (Failure.http ⟨CURLE_RECV_ERROR, 0⟩) = Outcome.resubscribed 0 ∧
    twitter_stream_reconnection (Failure.http ⟨CURLE_COULDNT_CONNECT, 0⟩) =
      Outcome.resubscribed 5 ∧
    twitter_stream_reconnection (Failure.http ⟨0, 500⟩) = Outcome.resubscribed 5 ∧
    twitter_stream_reconnection (Failure.http ⟨0, 420⟩) = Outcome.resubscribed 60 ∧
    on_error_resume_next (Failure.http ⟨CURLE_HTTP_RETURNED_ERROR, 503⟩) =
      on_error_resume_next (Failure.http ⟨0, 500⟩) :=
  ⟨((recovery_action_of_class ⟨CURLE_RECV_ERROR, 0⟩).1 (by decide)).2,
    ((recovery_action_of_class ⟨CURLE_COULDNT_CONNECT, 0⟩).2.1 (Or.inl (by decide))).2,
    ((recovery_action_of_class ⟨0, 500⟩).2.1 (Or.inr (by decide))).2,
    ((recovery_action_of_class ⟨0, 420⟩).2.2.1 (by decide)).2,
    (recovery_action_of_class ⟨0, 500⟩).2.2.2 ⟨CURLE_HTTP_RETURNED_ERROR, 503⟩ (by decide)
      (by decide)⟩

/-- C8: every HTTP failure of class `Invalid` ends the stream with that same
failure as its error, and nothing is subscribed again; status 404 with a
transport code outside the two retry sets is such a failure; every HTTP
failure of another class leads to a new subscription, never to the end of the
stream. -/
theorem invalid_ends_stream (ex : http_exception) :
    (errorclassfrom ex = errorcodeclass.Invalid →
      on_error_resume_next (Failure.http ex) =
        Recovery.resume ⟨0, Ending.error (Failure.http ex)⟩ ∧
      twitter_stream_reconnection (Failure.http ex) = Outcome.ended (Failure.http ex)) ∧
    (errorclassfrom ex ≠ errorcodeclass.Invalid →
      ∃ seconds, twitter_stream_reconnection (Failure.http ex) =
        Outcome.resubscribed seconds) ∧
    (ex.httpStatus = 404 →
      ex.code ∉ [CURLE_COULDNT_RESOLVE_HOST, CURLE_COULDNT_CONNECT, CURLE_OPERATION_TIMEDOUT,
        CURLE_BAD_CONTENT_ENCODING, CURLE_REMOTE_FILE_NOT_FOUND] →
      ex.code ∉ [CURLE_GOT_NOTHING, CURLE_PARTIAL_FILE, CURLE_SEND_ERROR, CURLE_RECV_ERROR] →
      errorclassfrom ex = errorcodeclass.Invalid) := by
  refine ⟨?_, ?_, ?_⟩
  · intro h
    simp [twitter_stream_reconnection, on_error_resume_next, h, Source.error]
  · intro hne
    cases h : errorclassfrom ex
    · exact absurd h hne
    · exact ⟨0, by simp [twitter_stream_reconnection, on_error_resume_next, h, Source.empty]⟩
    · exact ⟨5, by simp [twitter_stream_reconnection, on_error_resume_next, h, Source.timer,
        stringandignore]⟩
    · exact ⟨5, by simp [twitter_stream_reconnection, on_error_resume_next, h, Source.timer,
        stringandignore]⟩
    · exact ⟨60, by simp [twitter_stream_reconnection, on_error_resume_next, h, Source.timer,
        stringandignore]⟩
  · intro hs h1 h2
    obtain ⟨c, s⟩ := ex
    simp only at hs h1 h2
    subst hs
    rw [errorclassfrom_table c 404]
    unfold classificationTable
    rw [if_neg h1, if_neg h2]
    simp

/-- Witness of C8: the failure (no transport error, status 404) ends the
stream, the failure (no transport error, status 500) does not. -/
theorem invalid_ends_stream_witness :
    twitter_stream_reconnection (Failure.http ⟨0, 404⟩) = Outcome.ended (Failure.http ⟨0, 404⟩) ∧
    (∃ seconds, twitter_stream_reconnection (Failure.http ⟨0, 500⟩) =
      Outcome.resubscribed seconds) ∧
    errorclassfrom ⟨0, 404⟩ = errorcodeclass.Invalid :=
  ⟨((invalid_ends_stream ⟨0, 404⟩).1 (by decide)).2,
    (invalid_ends_stream ⟨0, 500⟩).2.1 (by decide),
    (invalid_ends_stream ⟨0, 404⟩).2.2 rfl (by decide) (by decide)⟩


theorem find_first_not_of_eq_none (s : Str) :
    find_first_not_of s CRLF = none ↔ ∀ c ∈ s, c = CR ∨ c = LF := by
  induction s with
  | nil => simp [find_first_not_of]
  | cons c rest ih =>
    unfold find_first_not_of
    by_cases hc : CRLF.contains c = true
    · rw [if_pos hc, Option.map_eq_none', ih]
      have hc2 : c = CR ∨ c = LF := by simpa [CRLF] using hc
      simp [hc2]
    · rw [if_neg hc]
      have hc2 : ¬ (c = CR ∨ c = LF) := by simpa [CRLF] using hc
      simp [hc2]

theorem keepLine_eq_false_iff (s : Str) :
    keepLine s = false ↔ (s.length < 3 ∨ ∀ c ∈ s, c = CR ∨ c = LF) := by
  unfold keepLine
  rw [Bool.and_eq_false_iff, decide_eq_false_iff_not, ← find_first_not_of_eq_none]
  constructor
  · rintro (h | h)
    · exact Or.inl (by omega)
    · right
      cases hf : find_first_not_of s CRLF with
      | none => rfl
      | some i => simp [hf] at h
  · rintro (h | h)
    · exact Or.inl (by omega)
    · right
      simp [h]

/-- C9: the keepalive filter drops a reconstructed line if and only if the
line has fewer than 3 characters or consists solely of the delimiter
characters; the lines that pass are exactly the other lines, unchanged and in
order.  Of the lines "abc\r\n", "d\r\n", "\r\n", "ef\r\n" exactly "abc\r\n",
"d\r\n" and "ef\r\n" survive. -/
theorem keepalive_filter_drops_iff :
    (∀ s : Str, keepLine s = false ↔ (s.length < 3 ∨ ∀ c ∈ s, c = CR ∨ c = LF)) ∧
    (∀ ls : List Str, filterKeepalive ls =
      ls.filter (fun s => decide (¬ (s.length < 3 ∨ ∀ c ∈ s, c = CR ∨ c = LF)))) ∧
    filterKeepalive ["abc\r\n".toList, "d\r\n".toList, "\r\n".toList, "ef\r\n".toList] =
      ["abc\r\n".toList, "d\r\n".toList, "ef\r\n".toList] := by
  refine ⟨keepLine_eq_false_iff, ?_, by decide⟩
  intro ls
  unfold filterKeepalive
  apply List.filter_congr
  intro s _
  cases h : keepLine s
  · have := (keepLine_eq_false_iff s).mp h
    simp [this]
  · have : ¬ (s.length < 3 ∨ ∀ c ∈ s, c = CR ∨ c = LF) := by
      rw [← keepLine_eq_false_iff, h]
      simp
    simp [this]


theorem split_ne_nil (s : Str) : split s ≠ [] := by
  induction s using split.induct with
  | case1 => simp [split]
  | case2 c => simp [split]
  | case3 c d rest h ih =>
    rw [split, if_pos h]
    simp
  | case4 c d rest h hs ih =>
    rw [split, if_neg h, hs]
    simp
  | case5 c d rest h p ps hs ih =>
    rw [split, if_neg h, hs]
    simp

theorem split_flatten (s : Str) : (split s).flatten = s := by
  induction s using split.induct with
  | case1 => simp [split]
  | case2 c => simp [split]
  | case3 c d rest h ih =>
    rw [split, if_pos h]
    simp [ih]
  | case4 c d rest h hs ih =>
    exact absurd hs (split_ne_nil _)
  | case5 c d rest h p ps hs ih =>
    rw [hs, List.flatten_cons] at ih
    rw [split, if_neg h, hs]
    simp only [List.flatten_cons, List.cons_append, ih]

theorem filter_nonempty_flatten (ps : List Str) :
    (ps.filter (fun s => !s.isEmpty)).flatten = ps.flatten := by
  induction ps with
  | nil => rfl
  | cons p ps ih =>
    cases p with
    | nil => simpa using ih
    | cons c p => simp [List.filter_cons, ih]

theorem flatMap_split_flatten (chunks : List Str) :
    (chunks.flatMap split).flatten = chunks.flatten := by
  induction chunks with
  | nil => rfl
  | cons c cs ih =>
    rw [List.flatMap_cons, List.flatten_append, split_flatten, ih, List.flatten_cons]

/-- The pieces carry the text of the chunks. -/
theorem strings_flatten (chunks : List Str) : (strings chunks).flatten = chunks.flatten := by
  unfold strings
  rw [filter_nonempty_flatten, flatMap_split_flatten]

theorem closed_flatten_ends (closed : List (List Str)) (h : ∀ g ∈ closed, IsLineGroup g) :
    closed.flatten = [] ∨ ∃ pre last, closed.flatten = pre ++ [last] ∧ endsInDelimiter last := by
  rcases List.eq_nil_or_concat closed with rfl | ⟨cl, g, rfl⟩
  · exact Or.inl rfl
  · right
    obtain ⟨init, last, hg, _, hl⟩ := h g (by simp)
    refine ⟨cl.flatten ++ init, last, ?_, hl⟩
    simp [hg, List.flatten_append]


theorem flatten_eq_nil_of_ne_nil (ps : List Str) (h : ∀ p ∈ ps, p ≠ [])
    (hf : ps.flatten = []) : ps = [] := by
  cases ps with
  | nil => rfl
  | cons p ps =>
    rw [List.flatten_cons, List.append_eq_nil] at hf
    exact absurd hf.1 (h p (List.mem_cons_self p ps))

theorem endsInDelimiter_flatten_concat (pre : List Str) (last : Str)
    (h : endsInDelimiter last) : endsInDelimiter (pre ++ [last]).flatten := by
  obtain ⟨t, ht⟩ := h
  refine ⟨pre.flatten ++ t, ?_⟩
  rw [List.flatten_concat, ← ht, List.append_assoc]

/-- C10: for every chunk sequence whose text does not end with the delimiter,
the Line Reconstructor, when the source completes, emits after the lines of
the boundaries one final line: the concatenation of the pieces received after
the last boundary.  The lines then carry the whole text of the chunks, and
the final line is not empty unless the text is. -/
theorem final_line_on_completion (chunks : List Str)
    (h : ¬ endsInDelimiter chunks.flatten) :
    ∃ (pre rest : List Str),
      strings chunks = pre ++ rest ∧
      (pre = [] ∨ ∃ pre0 last, pre = pre0 ++ [last] ∧ endsInDelimiter last) ∧
      (∀ p ∈ rest, ¬ endsInDelimiter p) ∧
      linesCompleted chunks = lines chunks ++ [rest.flatten] ∧
      (linesCompleted chunks).flatten = chunks.flatten ∧
      (chunks.flatten ≠ [] → rest.flatten ≠ []) := by
  obtain ⟨k1, k2, k3⟩ := linewindows_invariant (strings chunks)
  have hc : linesCompleted chunks =
      lines chunks ++ [(linewindows (strings chunks)).current.flatten] := by
    unfold linesCompleted
    rw [sumWindow_eq_flatten]
  have ht : (linesCompleted chunks).flatten = chunks.flatten := by
    rw [hc, lines_eq_map_flatten, List.flatten_concat, ← strings_flatten chunks]
    conv_rhs => rw [k1]
    rw [List.flatten_append, List.flatten_flatten]
  refine ⟨_, _, k1, closed_flatten_ends _ k2, k3, hc, ht, ?_⟩
  intro hne hrest
  have hcur : (linewindows (strings chunks)).current = [] := by
    apply flatten_eq_nil_of_ne_nil _ _ hrest
    intro p hp
    apply strings_ne_nil chunks
    rw [k1]
    exact List.mem_append_right _ hp
  rw [hcur, List.append_nil] at k1
  rcases closed_flatten_ends _ k2 with h0 | ⟨pre0, last, h1, h2⟩
  · rw [h0] at k1
    rw [← strings_flatten, k1] at hne
    exact hne rfl
  · apply h
    rw [← strings_flatten, k1, h1]
    exact endsInDelimiter_flatten_concat pre0 last h2

/-- Witness of C10: the chunks "ab\r\n" and "c" end in the partial line "c",
which is the final line once the source has completed. -/
theorem final_line_on_completion_witness :
    ¬ endsInDelimiter ["ab\r\n".toList, "c".toList].flatten ∧
    ∃ (pre rest : List Str),
      strings ["ab\r\n".toList, "c".toList] = pre ++ rest ∧
      (pre = [] ∨ ∃ pre0 last, pre = pre0 ++ [last] ∧ endsInDelimiter last) ∧
      (∀ p ∈ rest, ¬ endsInDelimiter p) ∧
      linesCompleted ["ab\r\n".toList, "c".toList] =
        lines ["ab\r\n".toList, "c".toList] ++ [rest.flatten] ∧
      (linesCompleted ["ab\r\n".toList, "c".toList]).flatten =
        ["ab\r\n".toList, "c".toList].flatten ∧
      (["ab\r\n".toList, "c".toList].flatten ≠ [] → rest.flatten ≠ []) :=
  ⟨by unfold endsInDelimiter; decide,
    final_line_on_completion ["ab\r\n".toList, "c".toList]
      (by unfold endsInDelimiter; decide)⟩

theorem isTweet_iff (tw : Tweet) : isTweet tw = true ↔ hasTimestamp tw := by
  obtain ⟨j⟩ := tw
  unfold isTweet hasTimestamp
  cases j with
  | object members =>
    simp only [json.count]
    constructor
    · intro h
      by_cases ha : members.any (fun m => m.1 == "timestamp_ms".toList) = true
      · rw [List.any_eq_true] at ha
        obtain ⟨⟨k, v⟩, hm, hk⟩ := ha
        have hk2 : k = "timestamp_ms".toList := by simpa using hk
        subst hk2
        exact ⟨members, v, rfl, hm⟩
      · rw [if_neg ha] at h
        simp at h
    · rintro ⟨ms, v, hj, hm⟩
      have e : members = ms := by
        injection hj
      subst e
      have ha : members.any (fun m => m.1 == "timestamp_ms".toList) = true := by
        rw [List.any_eq_true]
        exact ⟨_, hm, by simp⟩
      rw [if_pos ha]
      rfl
  | null =>
    constructor
    · intro h
      exact absurd h (Bool.false_ne_true)
    · rintro ⟨ms, v, hj, _⟩
      cases hj
  | boolean b =>
    constructor
    · intro h
      exact absurd h (Bool.false_ne_true)
    · rintro ⟨ms, v, hj, _⟩
      cases hj
  | number t =>
    constructor
    · intro h
      exact absurd h (Bool.false_ne_true)
    · rintro ⟨ms, v, hj, _⟩
      cases hj
  | string t =>
    constructor
    · intro h
      exact absurd h (Bool.false_ne_true)
    · rintro ⟨ms, v, hj, _⟩
      cases hj
  | array items =>
    constructor
    · intro h
      exact absurd h (Bool.false_ne_true)
    · rintro ⟨ms, v, hj, _⟩
      cases hj

/-- C11: for every sequence of Records, `onlytweets` returns exactly the
Records that have a "timestamp_ms" attribute, in the original order and
unaltered: it is the filter by a test that holds of a Record if and only if
the Record has the attribute, so that no Record without it is emitted and
none with it is dropped. -/
theorem onlytweets_keeps_timestamped :
    ∃ test : Tweet → Bool,
      (∀ tw, test tw = true ↔ hasTimestamp tw) ∧
      (∀ s : List Tweet, onlytweets s = s.filter test) ∧
      (∀ s : List Tweet, List.Sublist (onlytweets s) s) ∧
      (∀ (s : List Tweet) (tw : Tweet), tw ∈ onlytweets s ↔ tw ∈ s ∧ hasTimestamp tw) := by
  refine ⟨isTweet, isTweet_iff, fun s => rfl, fun s => List.filter_sublist s, ?_⟩
  intro s tw
  unfold onlytweets
  rw [List.mem_filter, isTweet_iff]

/-- C12 as stated fails: a failure with status 420 whose transport code is the
connect failure is classified `ErrorRetry`, and a failure with status 404
whose transport code is the recv error is classified `TcpRetry`. -/
theorem status_does_not_override_code :
    errorclassfrom ⟨CURLE_COULDNT_CONNECT, 420⟩ = errorcodeclass.ErrorRetry ∧
    errorclassfrom ⟨CURLE_RECV_ERROR, 404⟩ = errorcodeclass.TcpRetry := by
  decide

/-- C12 (amended): for every failure whose transport code is in neither of the
two retry sets, HTTP status 420 is classified `RateLimited` and HTTP status
404 is classified `Invalid`. -/
theorem status_class_outside_retry_codes (c : CURLcode)
    (h1 : c ∉ [CURLE_COULDNT_RESOLVE_HOST, CURLE_COULDNT_CONNECT, CURLE_OPERATION_TIMEDOUT,
      CURLE_BAD_CONTENT_ENCODING, CURLE_REMOTE_FILE_NOT_FOUND])
    (h2 : c ∉ [CURLE_GOT_NOTHING, CURLE_PARTIAL_FILE, CURLE_SEND_ERROR, CURLE_RECV_ERROR]) :
    errorclassfrom ⟨c, 420⟩ = errorcodeclass.RateLimited ∧
    errorclassfrom ⟨c, 404⟩ = errorcodeclass.Invalid := by
  rw [errorclassfrom_table c 420, errorclassfrom_table c 404]
  unfold classificationTable
  rw [if_neg h1, if_neg h2, if_neg h1, if_neg h2]
  simp

/-- Witness of the amended C12: the transport code `CURLE_HTTP_RETURNED_ERROR`. -/
theorem status_class_outside_retry_codes_witness :
    errorclassfrom ⟨CURLE_HTTP_RETURNED_ERROR, 420⟩ = errorcodeclass.RateLimited ∧
    errorclassfrom ⟨CURLE_HTTP_RETURNED_ERROR, 404⟩ = errorcodeclass.Invalid :=
  status_class_outside_retry_codes CURLE_HTTP_RETURNED_ERROR (by decide) (by decide)

theorem on_error_resume_next_eq_with (ep : Failure) :
    on_error_resume_next ep = on_error_resume_next_with errorclassfrom ep := by
  cases ep <;> rfl

/-- C13: on a timeout failure the handler makes no use of the classifier
(whatever classifier it is given, it resumes with the immediately completing
source), the stream does not end and is not aborted: the source is subscribed
again with no delay, which is the action taken for `TcpRetry`. -/
theorem timeout_reconnects_immediately :
    (∀ ep, on_error_resume_next ep = on_error_resume_next_with errorclassfrom ep) ∧
    (∀ classify : http_exception → errorcodeclass,
      on_error_resume_next_with classify Failure.timeout =
        Recovery.resume ⟨0, Ending.completed⟩) ∧
    on_error_resume_next Failure.timeout = Recovery.resume ⟨0, Ending.completed⟩ ∧
    twitter_stream_reconnection Failure.timeout = Outcome.resubscribed 0 ∧
    (∀ ex : http_exception, errorclassfrom ex = errorcodeclass.TcpRetry →
      on_error_resume_next (Failure.http ex) = on_error_resume_next Failure.timeout ∧
      twitter_stream_reconnection (Failure.http ex) =
        twitter_stream_reconnection Failure.timeout) := by
  refine ⟨on_error_resume_next_eq_with, fun _ => rfl, rfl, rfl, ?_⟩
  intro ex h
  simp [twitter_stream_reconnection, on_error_resume_next, h, Source.empty]

/-- Witness of C13 on the failure (recv error, no status), of class
`TcpRetry`. -/
theorem timeout_reconnects_immediately_witness :
    errorclassfrom ⟨CURLE_RECV_ERROR, 0⟩ = errorcodeclass.TcpRetry ∧
    on_error_resume_next (Failure.http ⟨CURLE_RECV_ERROR, 0⟩) =
      on_error_resume_next Failure.timeout ∧
    twitter_stream_reconnection (Failure.http ⟨CURLE_RECV_ERROR, 0⟩) =
      twitter_stream_reconnection Failure.timeout :=
  ⟨by decide, timeout_reconnects_immediately.2.2.2.2 ⟨CURLE_RECV_ERROR, 0⟩ (by decide)⟩

theorem closed_current_flatten (chunks : List Str) :
    (lines chunks).flatten ++ (linewindows (strings chunks)).current.flatten =
      chunks.flatten := by
  have k1 := (linewindows_invariant (strings chunks)).1
  rw [lines_eq_map_flatten, ← strings_flatten chunks]
  conv_rhs => rw [k1]
  rw [List.flatten_append, List.flatten_flatten]

/-- C14: for every chunk sequence, the lines emitted by the Line
Reconstructor up to the completion of the source, concatenated in order, are
the concatenation of the chunks; while the source runs, the lines emitted so
far concatenate to a prefix of that text, the rest being the pieces held in
the open window. -/
theorem lines_carry_the_text (chunks : List Str) :
    (linesCompleted chunks).flatten = chunks.flatten ∧
    (lines chunks).flatten ++ (linewindows (strings chunks)).current.flatten =
      chunks.flatten ∧
    (lines chunks).flatten <+: chunks.flatten := by
  have h := closed_current_flatten chunks
  refine ⟨?_, h, ⟨_, h⟩⟩
  unfold linesCompleted
  rw [sumWindow_eq_flatten, List.flatten_concat, h]

theorem isEndOfTweet_iff_drop (s : Str) :
    isEndOfTweet s = true ↔ 2 ≤ s.length ∧ s.drop (s.length - 2) = [CR, LF] := by
  rw [isEndOfTweet_iff]
  constructor
  · rintro ⟨t, rfl⟩
    refine ⟨by simp [CRLF], ?_⟩
    have e : (t ++ CRLF).length - 2 = t.length := by simp [CRLF]
    rw [e, List.drop_left]
    rfl
  · rintro ⟨_, h⟩
    refine ⟨s.take (s.length - 2), ?_⟩
    have := List.take_append_drop (s.length - 2) s
    rw [h] at this
    exact this.symm

/-- C16: for every string `s`, `isEndOfTweet(s)` is true if and only if `s`
has at least 2 characters and its last two characters are '\r' followed by
'\n'; for strings of length 0 or 1 it returns false and dereferences no
position of `s`; every position it dereferences lies inside `s`. -/
theorem isEndOfTweet_last_two (s : Str) :
    (isEndOfTweet s = true ↔ 2 ≤ s.length ∧ s.drop (s.length - 2) = [CR, LF]) ∧
    (s.length < 2 → isEndOfTweet s = false ∧ isEndOfTweetReads s = []) ∧
    (∀ i ∈ isEndOfTweetReads s, i < s.length) := by
  refine ⟨isEndOfTweet_iff_drop s, ?_, ?_⟩
  · intro h
    refine ⟨isEndOfTweet_short s h, ?_⟩
    unfold isEndOfTweetReads
    rw [if_pos h]
  · intro i hi
    unfold isEndOfTweetReads at hi
    by_cases h : s.length < 2
    · rw [if_pos h] at hi
      simp at hi
    · rw [if_neg h] at hi
      split at hi
      · simp only [List.mem_cons, List.mem_singleton, List.not_mem_nil, or_false] at hi
        omega
      · simp only [List.mem_singleton] at hi
        omega

/-- Witness of C16: the string "\n" of length 1, and the string "a\r\n". -/
theorem isEndOfTweet_last_two_witness :
    (isEndOfTweet "\n".toList = false ∧ isEndOfTweetReads "\n".toList = []) ∧
    isEndOfTweet "a\r\n".toList = true :=
  ⟨(isEndOfTweet_last_two "\n".toList).2.1 (by decide),
    (isEndOfTweet_last_two "a\r\n".toList).1.mpr ⟨by decide, by decide⟩⟩

theorem toUnsigned_incrInt (c : Int) :
    toUnsigned (incrInt c) = ((c + 1) % 4294967296).toNat := by
  unfold toUnsigned incrInt
  norm_num
  congr 1
  omega

theorem incrInt_add_emod (c z : Int) :
    (incrInt c + z) % 4294967296 = (c + 1 + z) % 4294967296 := by
  unfold incrInt
  norm_num
  omega

/-- The key of every position, with the wrap of the counter: the line at
position `k` after a counter value `c` gets `((c + k + 1) mod 2^32) mod N`. -/
theorem group_by_from_key (hc : Nat) (ls : List Str) (c : Int) (k : Nat) :
    (group_by_from hc c ls)[k]? =
      ls[k]?.map (fun l => (((c + k + 1) % 4294967296).toNat % hc, l)) := by
  induction ls generalizing c k with
  | nil => simp [group_by_from]
  | cons l ls ih =>
    rw [group_by_from]
    cases k with
    | zero =>
      simp only [List.getElem?_cons_zero, Option.map_some', keySelector, toUnsigned_incrInt]
      simp
    | succ k =>
      rw [List.getElem?_cons_succ, List.getElem?_cons_succ, ih]
      have e : ((keySelector hc c).1 + (k : Int) + 1) % 4294967296 =
          (c + ((k + 1 : Nat) : Int) + 1) % 4294967296 := by
        show (incrInt c + (k : Int) + 1) % 4294967296 = _
        rw [add_assoc, incrInt_add_emod]
        push_cast
        congr 1
        ring
      rw [e]

/-- C15 as stated fails for long streams: with three shards, the lines at the
positions 2^32 - 2 and 2^32 - 1 of a stream of 2^32 lines both get the key 0,
the counter having wrapped, so that two consecutive lines do not get
cyclically consecutive keys. -/
theorem shard_keys_after_wrap :
    ((group_by 3 (List.replicate 4294967296 "aa\r\n".toList)).map Prod.fst)[4294967294]? =
      some 0 ∧
    ((group_by 3 (List.replicate 4294967296 "aa\r\n".toList)).map Prod.fst)[4294967295]? =
      some 0 ∧
    (0 + 1) % 3 ≠ 0 := by
  refine ⟨?_, ?_, by decide⟩
  · rw [List.getElem?_map]
    unfold group_by
    rw [group_by_from_key, List.getElem?_replicate, if_pos (by norm_num)]
    rfl
  · rw [List.getElem?_map]
    unfold group_by
    rw [group_by_from_key, List.getElem?_replicate, if_pos (by norm_num)]
    rfl

theorem group_by_keys (hc : Nat) (ls : List Str) (hlen : ls.length < 2 ^ 31) :
    (group_by hc ls).map Prod.fst = (List.range ls.length).map (fun k => (k + 1) % hc) := by
  apply List.ext_getElem?
  intro k
  have h := group_by_from_getElem? hc ls 0 k (by simpa using hlen)
  rw [Nat.cast_zero] at h
  unfold group_by
  rw [List.getElem?_map, List.getElem?_map, h]
  by_cases hk : k < ls.length
  · rw [List.getElem?_eq_getElem hk, List.getElem?_range hk]
    simp
  · have hk2 : ls.length ≤ k := Nat.le_of_not_lt hk
    rw [List.getElem?_eq_none hk2, List.getElem?_eq_none (by simpa using hk2)]
    rfl

/-- The lines with key `a` among the first `n`, counted through the residues
of the positions `1, ..., n`. -/
theorem count_keys_range (hc a n : Nat) (ha : a < hc) :
    List.count a ((List.range n).map (fun k => (k + 1) % hc)) + (if a = 0 then 1 else 0) =
      Nat.count (fun j => j ≡ a [MOD hc]) (n + 1) := by
  induction n with
  | zero =>
    rw [Nat.count_succ, Nat.count_zero]
    by_cases h0 : a = 0
    · subst h0
      simp [Nat.ModEq]
    · have h1 : ¬ (0 ≡ a [MOD hc]) := by
        intro h
        unfold Nat.ModEq at h
        rw [Nat.zero_mod, Nat.mod_eq_of_lt ha] at h
        exact h0 h.symm
      simp [h0, h1]
  | succ n ih =>
    rw [Nat.count_succ, ← ih, List.range_succ, List.map_append, List.count_append,
      List.map_singleton, List.count_singleton]
    by_cases h : (n + 1) % hc = a
    · have h1 : n + 1 ≡ a [MOD hc] := by
        unfold Nat.ModEq
        rw [Nat.mod_eq_of_lt ha]
        exact h
      simp only [h, h1, beq_self_eq_true, if_true]
      omega
    · have h1 : ¬ (n + 1 ≡ a [MOD hc]) := by
        intro h2
        unfold Nat.ModEq at h2
        rw [Nat.mod_eq_of_lt ha] at h2
        exact h h2
      have h3 : ((n + 1) % hc == a) = false := by simpa using h
      simp only [h1, h3, if_false, Bool.false_eq_true]
      omega

theorem count_keys_formula (hc a n : Nat) (ha : a < hc) :
    List.count a ((List.range n).map (fun k => (k + 1) % hc)) + (if a = 0 then 1 else 0) =
      (n + 1) / hc + (if a < (n + 1) % hc then 1 else 0) := by
  rw [count_keys_range hc a n ha, Nat.count_modEq_card (n + 1) (by omega) a,
    Nat.mod_eq_of_lt ha]

theorem count_keys_balanced (hc a b n : Nat) (ha : a < hc) (hb : b < hc) :
    List.count a ((List.range n).map (fun k => (k + 1) % hc)) ≤
      List.count b ((List.range n).map (fun k => (k + 1) % hc)) + 1 := by
  have fa := count_keys_formula hc a n ha
  have fb := count_keys_formula hc b n hb
  split_ifs at fa fb <;> omega

/-- C15 (amended): for every shard count of at least 1 and every sequence of
fewer than 2^31 lines assigned by the round-robin counter, every shard key
lies in {0, ..., ShardCount-1}, consecutive lines get cyclically consecutive
keys, and the numbers of lines assigned to any two shards differ by at most
1. -/
theorem shard_keys_round_robin (hardware_concurrency : Nat) (hc : 1 ≤ hardware_concurrency)
    (ls : List Str) (hlen : ls.length < 2 ^ 31) :
    (∀ key ∈ (group_by hardware_concurrency ls).map Prod.fst, key < hardware_concurrency) ∧
    (∀ k, k + 1 < ls.length →
      ∃ key, ((group_by hardware_concurrency ls).map Prod.fst)[k]? = some key ∧
        ((group_by hardware_concurrency ls).map Prod.fst)[k + 1]? =
          some ((key + 1) % hardware_concurrency)) ∧
    (∀ a b, a < hardware_concurrency → b < hardware_concurrency →
      ((group_by hardware_concurrency ls).map Prod.fst).count a ≤
        ((group_by hardware_concurrency ls).map Prod.fst).count b + 1) := by
  rw [group_by_keys hardware_concurrency ls hlen]
  refine ⟨?_, ?_, ?_⟩
  · intro key hkey
    rw [List.mem_map] at hkey
    obtain ⟨k, _, rfl⟩ := hkey
    exact Nat.mod_lt _ (by omega)
  · intro k hk
    refine ⟨(k + 1) % hardware_concurrency, ?_, ?_⟩
    · rw [List.getElem?_map, List.getElem?_range (by omega)]
      rfl
    · rw [List.getElem?_map, List.getElem?_range hk, Nat.mod_add_mod]
      rfl
  · intro a b ha hb
    exact count_keys_balanced hardware_concurrency a b ls.length ha hb

/-- Witness of the amended C15: four shards and the five lines "aa\r\n". -/
theorem shard_keys_round_robin_witness :
    (1 ≤ 4 ∧ (List.replicate 5 "aa\r\n".toList).length < 2 ^ 31) ∧
    (∀ key ∈ (group_by 4 (List.replicate 5 "aa\r\n".toList)).map Prod.fst, key < 4) ∧
    (∀ k, k + 1 < (List.replicate 5 "aa\r\n".toList).length →
      ∃ key, ((group_by 4 (List.replicate 5 "aa\r\n".toList)).map Prod.fst)[k]? = some key ∧
        ((group_by 4 (List.replicate 5 "aa\r\n".toList)).map Prod.fst)[k + 1]? =
          some ((key + 1) % 4)) ∧
    (∀ a b, a < 4 → b < 4 →
      ((group_by 4 (List.replicate 5 "aa\r\n".toList)).map Prod.fst).count a ≤
        ((group_by 4 (List.replicate 5 "aa\r\n".toList)).map Prod.fst).count b + 1) :=
  ⟨⟨by decide, by decide⟩,
    shard_keys_round_robin 4 (by decide) (List.replicate 5 "aa\r\n".toList) (by decide)⟩

end tweets
